import Mathlib

/-
Verification of the rax radix-tree mutation engine (rax.c, an early
pre-release revision) against its natural-language specification.

Shallow embedding conventions:
  * A byte is a Nat in [0, 256).  The C key strings have type
    unsigned char *, so a key is a List Nat of byte values.
  * Values are C void pointers.  We model a value as Option Nat where
    none is the NULL pointer and some v a non-null pointer.
  * A node merges the C fields iskey / isnull / value slot into a single
    field key : Option (Option Nat):
      none            iskey == 0
      some none       iskey == 1, isnull == 1 (NULL value, no slot)
      some (some v)   iskey == 1, isnull == 0, slot holds v
  * The C type char is signed 8-bit (x86-64 SysV ABI, the platform of the
    Makefile).  rax.c compares stored bytes through a char pointer
    (char *v = (char* )h->data) against unsigned char key bytes, and
    raxAddChild receives the edge byte as char; both conversions are
    modelled explicitly by signedChar below.
  * Fallible or undefined executions return Option: raxInsert returns
    none exactly when the C code performs the out-of-bounds value write
    of raxSetData on a node that has no value slot (see claim C5).
-/

set_option maxRecDepth 16000

/-- Value of a byte after conversion to the signed 8-bit C type char and
promotion to int, as happens in the comparisons of raxLowWalk and
raxAddChild (rax.c, part_002 lines 202-265 and 325-361). -/
def signedChar (b : Nat) : Int := if b < 128 then (b : Int) else (b : Int) - 256

/-- The comparison v[j] == s[i] of raxLowWalk: v has type char* (signed),
s has type unsigned char*; both operands are promoted to int. -/
def chrMatch (stored keyb : Nat) : Bool := signedChar stored == (keyb : Int)

/-- Number of leading positions matched by the lockstep loop
for (j = 0; j < h->size && i < len; j++, i++) if (v[j] != s[i]) break;
of raxLowWalk on a compressed node. -/
def comprMatchLen : List Nat → List Nat → Nat
  | e :: es, b :: bs => if chrMatch e b then comprMatchLen es bs + 1 else 0
  | _, _ => 0

/-- A rax tree node (struct raxNode of rax.h, reconstructed from every use
in part_002): header bits iskey/isnull/iscompr, size edge bytes, and
either size child pointers (normal) or one child pointer (compressed).
The key field packs iskey/isnull/value as described in the header
comment; edges is the byte area; children the pointer area. -/
inductive raxNode : Type where
  | mk (key : Option (Option Nat)) (iscompr : Bool) (edges : List Nat) (children : List raxNode)

instance : Inhabited raxNode := ⟨.mk none false [] []⟩

def raxNode.key : raxNode → Option (Option Nat)
  | .mk k _ _ _ => k

def raxNode.iscompr : raxNode → Bool
  | .mk _ ic _ _ => ic

def raxNode.edges : raxNode → List Nat
  | .mk _ _ e _ => e

def raxNode.children : raxNode → List raxNode
  | .mk _ _ _ ch => ch

/-- The size field of a node (number of children of a normal node, edge
string length of a compressed node); it always equals the length of the
byte area. -/
def raxNode.size (n : raxNode) : Nat := n.edges.length

/-- The iskey bit. -/
def raxNode.iskey (n : raxNode) : Bool := n.key.isSome

/-- The isnull bit (meaningful only when iskey is set). -/
def raxNode.isnull (n : raxNode) : Bool := n.key == some none

/-- Combined effect of raxReallocForData followed by raxSetData on a node
that either is not yet a key or already has a slot of the right shape
(the defined-behavior cases; the undefined case is kept out by the
callers, see claim C5). -/
def raxNode.withKey (n : raxNode) (data : Option Nat) : raxNode :=
  match n with | .mk _ ic e ch => .mk (some data) ic e ch

/-- Clearing the iskey bit, as done by h->iskey = 0 in raxRemove. -/
def raxNode.clearKey (n : raxNode) : raxNode :=
  match n with | .mk _ ic e ch => .mk none ic e ch

/-- Replace the child stored at slot i, as the C code does by writing
through a saved raxNode** parent link. -/
def withChildAt : raxNode → Nat → raxNode → raxNode
  | .mk k ic e ch, i, c => .mk k ic e (ch.set i c)

/-- raxNewNode(0): a fresh empty leaf, all header bits clear. -/
def raxNewNode : raxNode := .mk none false [] []

/-- The rax container (struct rax): root pointer plus element and node
counters.  numnodes is present in part_002 (rax->numnodes) even though
the struct itself lives in the missing rax.h. -/
structure rax where
  head : raxNode
  numele : Nat
  numnodes : Nat

/-- raxNew(): empty tree, one (empty leaf) node. -/
def raxNew : rax := ⟨raxNewNode, 0, 1⟩

/-- Modelled from the spec: RAX_NODE_MAX_SIZE, the maximum number of bytes
a single compressed node may carry.  The constant is defined in rax.h,
which is not under src/; the spec (section 4.4, Case D) says a compressed
node carries up to an implementation-defined maximum, e.g. up to a bound
around a few hundred bytes.  We fix 512.  None of the concrete inputs
used below comes anywhere near this bound, so no settled claim depends
on the particular value. -/
def RAX_NODE_MAX_SIZE : Nat := 512

/-- Result of raxLowWalk: characters matched (the return value i), the
stop node, the split position as raxInsert receives it through the
splitpos out-parameter (written only when the stop node is compressed,
otherwise the j = 0 initialization of the caller survives), and the
stack of (parent, descent slot) pairs pushed before each descent. -/
structure walkRes where
  matched : Nat
  stop : raxNode
  split : Nat
  path : List (raxNode × Nat)

mutual

/-- raxLowWalk (part_002 lines 325-361).  The loop runs while the node is
non-empty and key bytes remain; a compressed node is matched in lockstep
through a char* view of its bytes (hence chrMatch), a normal node by a
linear scan for an equal edge byte through the same char* view.  The
parent is pushed before each descent; a compressed child entered with no
key bytes left reports split position 0. -/
def raxLowWalk (h : raxNode) (s : List Nat) : walkRes :=
  match h, s with
  | h, [] => ⟨0, h, 0, []⟩
  | .mk k ic edges ch, b :: s' =>
    if edges.isEmpty then ⟨0, .mk k ic edges ch, 0, []⟩
    else if ic then
      let m := comprMatchLen edges (b :: s')
      if m = edges.length then
        let r := walkChild ch 0 ((b :: s').drop m)
        ⟨m + r.matched, r.stop, r.split, (.mk k ic edges ch, 0) :: r.path⟩
      else ⟨m, .mk k ic edges ch, m, []⟩
    else
      match edges.findIdx? (fun e => chrMatch e b) with
      | some j =>
        let r := walkChild ch j s'
        ⟨1 + r.matched, r.stop, r.split, (.mk k ic edges ch, j) :: r.path⟩
      | none => ⟨0, .mk k ic edges ch, 0, []⟩

/-- Descent into the child stored at the given slot (memcpy of the child
pointer at children+j).  An out-of-range slot would be a wild read in C;
it never happens on trees built by the operations. -/
def walkChild (ch : List raxNode) (j : Nat) (s : List Nat) : walkRes :=
  match ch, j with
  | [], _ => ⟨0, default, 0, []⟩
  | c :: _, 0 => raxLowWalk c s
  | _ :: cs, j + 1 => walkChild cs j s

end

/-- raxFind (part_002 lines 692-700): walk the key; raxNotFound unless the
whole key was consumed and the stop node is a key, else the stored value.
The result none is the raxNotFound sentinel, some v a found value (v =
none is the NULL payload, distinct from raxNotFound). -/
def raxFind (t : rax) (s : List Nat) : Option (Option Nat) :=
  let w := raxLowWalk t.head s
  if w.matched = s.length then w.stop.key else none

/-- Insertion position of raxAddChild (part_002 lines 220-223): the first
slot whose stored byte, promoted from unsigned char, exceeds the new edge
byte received through the signed parameter char c. -/
def addChildPos (edges : List Nat) (c : Nat) : Nat :=
  edges.findIdx (fun e => signedChar c < (e : Int))

/-- raxAddChild (part_002 lines 202-265): insert edge byte c and a fresh
empty leaf at that position, returning the grown node and the slot (the
parent link handed back through ***parentlink). -/
def raxAddChild (n : raxNode) (c : Nat) : raxNode × Nat :=
  match n with
  | .mk k ic edges ch =>
    let pos := addChildPos edges c
    (.mk k ic (edges.insertIdx pos c) (ch.insertIdx pos raxNewNode), pos)

/-- The suffix-append loop of raxInsert (part_002 lines 656-686) followed
by the final key write (lines 682-685); returns the rebuilt subtree, the
element-count delta (numele++ iff the final node was not yet a key; it is
always a fresh leaf when the loop ran) and the node-count delta.  In the
compress branch the C raxCompressNode leaves a garbage child slot (see
claim C1); the slot is rewritten through parentlink by this very loop
before raxInsert returns, which is what plugging the recursive result in
as the single child models. -/
def appendLoop (h : raxNode) (s : List Nat) (data : Option Nat) : raxNode × Nat × Nat :=
  match s with
  | [] => (h.withKey data, if h.iskey then 0 else 1, 0)
  | b :: s' =>
    if h.size = 0 ∧ 0 < s'.length then
      let c := min (s'.length + 1) RAX_NODE_MAX_SIZE
      let r := appendLoop raxNewNode ((b :: s').drop c) data
      (.mk h.key true ((b :: s').take c) [r.1], r.2.1, r.2.2 + 1)
    else
      let a := raxAddChild h b
      let r := appendLoop raxNewNode s' data
      (withChildAt a.1 a.2 r.1, r.2.1, r.2.2 + 1)
termination_by s.length
decreasing_by
  · have hc : 1 ≤ min (s'.length + 1) RAX_NODE_MAX_SIZE := by
      refine Nat.le_min.2 ⟨by omega, ?_⟩
      simp [RAX_NODE_MAX_SIZE]
    simp only [List.length_drop, List.length_cons]
    omega
  · simp only [List.length_cons]
    omega

/-- ALGORITHM 1 of raxInsert (part_002 lines 519-600): split the
compressed node h at mismatch position j, with s1 the still unmatched
key suffix (nonempty).  Steps: save next; build the split node carrying
the byte h->data[j] (inheriting key and value when j == 0); when j > 0
build the trimmed head (compressed iff j > 1, key and value preserved)
pointing at the split node; build the postfix node for the remaining
bytes (compressed iff longer than 1) pointing at next, or use next when
nothing remains; then continue the append loop from the split node. -/
def algo1 (h : raxNode) (j : Nat) (s1 : List Nat) (data : Option Nat) :
    raxNode × Bool × Nat × Nat :=
  match h with
  | .mk k _ edges ch =>
    let postfixlen := edges.length - j - 1
    let pfx : raxNode :=
      if 0 < postfixlen then .mk none (decide (1 < postfixlen)) (edges.drop (j + 1)) ch
      else ch.headD default
    let splitnode : raxNode :=
      .mk (if j = 0 then k else none) false [edges.getD j 0] [pfx]
    let r := appendLoop splitnode s1 data
    let dn := r.2.2 + (if 0 < postfixlen then 1 else 0)
    if j = 0 then (r.1, true, r.2.1, dn)
    else (.mk k (decide (1 < j)) (edges.take j) [r.1], true, r.2.1, dn + 1)

/-- ALGORITHM 2 of raxInsert (part_002 lines 601-649): the key is a proper
prefix of the compressed node h, exhausted at position j > 0.  Build the
postfix node (bytes from j on, compressed iff longer than 1, marked key
with the new value, keeping the original child) and the trimmed node
(first j bytes, compressed iff j > 1, inheriting key and value of h),
link trimmed -> postfix, and replace h by trimmed. -/
def algo2 (h : raxNode) (j : Nat) (data : Option Nat) : raxNode :=
  match h with
  | .mk k _ edges ch =>
    let pfx : raxNode := .mk (some data) (decide (1 < edges.length - j)) (edges.drop j) ch
    .mk k (decide (1 < j)) (edges.take j) [pfx]

mutual

/-- Body of raxInsert (part_002 lines 367-687) as a recursion that rebuilds
the tree along the walk.  Returns (new subtree, inserted-new flag, numele
delta, numnodes delta); none models the undefined out-of-bounds value
write performed when an existing key with isnull == 1 is overwritten with
a non-NULL value without reallocating (see claim C5).  The branch
structure mirrors raxLowWalk followed by the insertion cases: full match
not in the middle of a compressed node; ALGO1 on mismatch inside a
compressed node; ALGO2 on key exhaustion inside a compressed node; the
suffix-append loop otherwise. -/
def insGo (h : raxNode) (s : List Nat) (data : Option Nat) :
    Option (raxNode × Bool × Nat × Nat) :=
  match h, s with
  | h, [] =>
    match h.key with
    | some w =>
      if w = none ∧ data ≠ none then none
      else some (h.withKey data, false, 0, 0)
    | none => some (h.withKey data, true, 1, 0)
  | .mk k ic edges ch, b :: s' =>
    if edges.isEmpty then
      let r := appendLoop (.mk k ic edges ch) (b :: s') data
      some (r.1, true, r.2.1, r.2.2)
    else if ic then
      let m := comprMatchLen edges (b :: s')
      if m = edges.length then
        (insChild ch 0 ((b :: s').drop m) data).map
          (fun r => (withChildAt (.mk k ic edges ch) 0 r.1, r.2))
      else if m = (b :: s').length then
        some (algo2 (.mk k ic edges ch) m data, true, 1, 1)
      else some (algo1 (.mk k ic edges ch) m ((b :: s').drop m) data)
    else
      match edges.findIdx? (fun e => chrMatch e b) with
      | some j =>
        (insChild ch j s' data).map
          (fun r => (withChildAt (.mk k ic edges ch) j r.1, r.2))
      | none =>
        let r := appendLoop (.mk k ic edges ch) (b :: s') data
        some (r.1, true, r.2.1, r.2.2)

/-- Descent of the insertion recursion into the child at the given slot. -/
def insChild (ch : List raxNode) (j : Nat) (s : List Nat) (data : Option Nat) :
    Option (raxNode × Bool × Nat × Nat) :=
  match ch, j with
  | [], _ => some (default, true, 0, 0)
  | c :: _, 0 => insGo c s data
  | _ :: cs, j + 1 => insChild cs j s data

end

/-- raxInsert (part_002 lines 367-687): returns the updated tree and the C
return value (true = 1, element inserted; false = 0, element already
existed and the value was updated); none models the undefined write of
the update path on a null-valued key (claim C5). -/
def raxInsert (t : rax) (s : List Nat) (data : Option Nat) : Option (rax × Bool) :=
  (insGo t.head s data).map
    (fun r => (⟨r.1, t.numele + r.2.2.1, t.numnodes + r.2.2.2⟩, r.2.1))

/-- raxRemoveChild (part_002 lines 721-779) with the child identified by
its slot (the C code scans for the child pointer; the slot recorded
during the walk is where that pointer lives).  A compressed parent
becomes an empty normal node preserving key and value; a normal parent
loses the edge byte and the pointer at the slot. -/
def raxRemoveChild (p : raxNode) (i : Nat) : raxNode :=
  match p with
  | .mk k ic edges ch =>
    if ic then .mk k false [] []
    else .mk k ic (edges.eraseIdx i) (ch.eraseIdx i)

/-- The upward reclaim loop of raxRemove (part_002 lines 806-819): called
with the nonempty ancestor stack of a stop node that has no children.
Each iteration frees the current node and pops its parent; it stops when
the popped parent holds a key or has several children, or when it is the
tree head.  Returns the stopping parent, the slot in it leading to the
freed chain, the remaining stack, and how many nodes were freed. -/
def pruneLoop : List (raxNode × Nat) → Nat → raxNode × Nat × List (raxNode × Nat) × Nat
  | [], freed => (default, 0, [], freed)
  | [(p, i)], freed => (p, i, [], freed + 1)
  | (p, i) :: q :: rest, freed =>
    if p.iskey ∨ (¬p.iscompr ∧ p.size ≠ 1) then (p, i, q :: rest, freed + 1)
    else pruneLoop (q :: rest) (freed + 1)

/-- The upward scan opening the recompression phase (part_002 lines
899-907): climb while the next parent is neither a key nor a branching
node, folding the updated child back into each parent left behind (the C
code mutates in place and keeps the stale stack entries; the fields the
loop inspects are unchanged by child replacement). -/
def climb : raxNode → List (raxNode × Nat) → raxNode × List (raxNode × Nat)
  | x, [] => (x, [])
  | x, (p, i) :: rest =>
    if p.iskey ∨ (¬p.iscompr ∧ p.size ≠ 1) then (x, (p, i) :: rest)
    else climb (withChildAt p i x) rest

/-- The downward chain scan of the recompression phase (part_002 lines
909-918 and the twin populating loop 930-943): collect the edge bytes of
the maximal chain of non-key single-child nodes starting at h, counting
the nodes, and return the first node that cannot be collapsed (the
future child of the compressed replacement).  The step reads the last
child pointer, raxNodeLastChildPtr, which for both node layouts is the
only child of a single-child node.  The exit through the h->size == 0
guard cannot fire on a chain entered through the break test; it is kept
for totality. -/
def chainScan (h : raxNode) : List Nat × Nat × raxNode :=
  match h with
  | .mk k ic edges ch =>
    if edges.isEmpty then (edges, 1, .mk k ic edges ch)
    else
      match hc : ch.getLast? with
      | none => (edges, 1, .mk k ic edges ch)
      | some c =>
        if c.iskey ∨ (¬c.iscompr ∧ c.size ≠ 1) then (edges, 1, c)
        else
          let r := chainScan c
          (edges ++ r.1, r.2.1 + 1, r.2.2)
termination_by sizeOf h
decreasing_by
  have hm := List.mem_of_mem_getLast? hc
  have := List.sizeOf_lt_of_mem hm
  simp only [raxNode.mk.sizeOf_spec]
  omega

/-- The recompression phase of raxRemove (part_002 lines 891-962): climb
to the highest collapsible node, scan the chain below it, and when at
least two nodes collapse build one compressed node carrying the
concatenated bytes with the first non-collapsible node as its child.
Returns the replacement subtree, the remaining ancestor stack, and the
node-count decrease (nodes freed minus the one allocated). -/
def recompress (x : raxNode) (path : List (raxNode × Nat)) :
    raxNode × List (raxNode × Nat) × Nat :=
  let cl := climb x path
  let sc := chainScan cl.1
  if 1 < sc.2.1 then (.mk none true sc.1 [sc.2.2], cl.2, sc.2.1 - 1)
  else (cl.1, cl.2, 0)

/-- Fold a transformed subtree back into the untouched ancestors recorded
by the walk (the C code never needs this because the ancestors hold
pointers; the functional model rewrites the spine). -/
def rebuild (path : List (raxNode × Nat)) (x : raxNode) : raxNode :=
  path.foldl (fun acc pi => withChildAt pi.1 pi.2 acc) x

/-- raxRemove (part_002 lines 783-965).  Walk with stack collection; when
the key is absent return 0 and the unchanged tree.  Otherwise clear the
iskey bit and decrement numele; if the stop node is childless, reclaim
the orphan chain upward and unlink it from the stopping ancestor,
possibly marking that recompression should be attempted; if the stop
node kept a single child, attempt recompression directly. -/
def raxRemove (t : rax) (s : List Nat) : rax × Bool :=
  let w := raxLowWalk t.head s
  if w.matched ≠ s.length ∨ ¬w.stop.iskey then (t, false)
  else
    let stk := w.path.reverse
    let h0 := w.stop.clearKey
    if h0.size = 0 then
      match stk with
      | [] => (⟨h0, t.numele - 1, t.numnodes⟩, true)
      | e :: rest0 =>
        let pr := pruneLoop (e :: rest0) 0
        let np := raxRemoveChild pr.1 pr.2.1
        if np.size = 1 ∧ ¬np.iskey then
          let rc := recompress np pr.2.2.1
          (⟨rebuild rc.2.1 rc.1, t.numele - 1,
            t.numnodes - pr.2.2.2 - rc.2.2⟩, true)
        else
          (⟨rebuild pr.2.2.1 np, t.numele - 1, t.numnodes - pr.2.2.2⟩, true)
    else if h0.size = 1 then
      let rc := recompress h0 stk
      (⟨rebuild rc.2.1 rc.1, t.numele - 1, t.numnodes - rc.2.2⟩, true)
    else
      (⟨rebuild stk h0, t.numele - 1, t.numnodes⟩, true)

/-- Strict ascension of a byte list, the unsigned-order invariant of the
edge bytes of a normal node (spec section 3, data model). -/
def ascending : List Nat → Bool
  | [] => true
  | [_] => true
  | a :: b :: t => decide (a < b) && ascending (b :: t)

/-- Membership of a key in the stored key set of a subtree, following the
spec data model (invariants 5 and 6): a key is stored at a node iff the
concatenated edge bytes along the path from the root to that node equal
the key and the node has the iskey bit.  Bytes are compared exactly;
this is the mathematical key set, independent of the walk code. -/
def containsKey (n : raxNode) (s : List Nat) : Bool :=
  match n, s with
  | n, [] => n.iskey
  | .mk _ true edges ch, b :: s' =>
    edges.isPrefixOf (b :: s') &&
      (match ch with
       | c :: cs0 => containsKey c ((b :: s').drop edges.length)
       | [] => false)
  | .mk k false (e :: es) cs, b :: s' =>
    if e = b then
      match cs with
      | c :: cs0 => containsKey c s'
      | [] => false
    else
      match cs with
      | c0 :: cs' => containsKey (.mk k false es cs') (b :: s')
      | [] => false
  | .mk _ false [] _, _ :: _ => false
termination_by sizeOf n
decreasing_by
  · simp only [raxNode.mk.sizeOf_spec, List.cons.sizeOf_spec]
    omega
  · simp only [raxNode.mk.sizeOf_spec, List.cons.sizeOf_spec]
    omega
  · simp only [raxNode.mk.sizeOf_spec, List.cons.sizeOf_spec]
    omega

mutual

/-- Modelled from the spec: the visit sequence of a complete forward
iteration over a subtree (rax.h and the iterator implementation are not
under src/, only their callers in rax-test.c).  Spec section 4.6: seek
the leftmost key, then raxNext until EOF; next returns the key of the
current node first (shorter keys precede longer keys sharing them as a
prefix), then explores the children in slot order, smallest child first,
appending the edge bytes to the key buffer on descent.  A compressed
node contributes its whole edge string towards its only child. -/
def raxIterKeys (n : raxNode) : List (List Nat) :=
  match n with
  | .mk k ic edges ch =>
    (if k.isSome then [([] : List Nat)] else []) ++
      (if ic then (raxIterList ch).map (fun q => edges ++ q)
       else raxIterPairs edges ch)

/-- Forward exploration of the single child list of a compressed node. -/
def raxIterList (ch : List raxNode) : List (List Nat) :=
  match ch with
  | [] => []
  | c :: _ => raxIterKeys c

/-- Forward exploration of the (edge byte, child) pairs of a normal node,
in slot order. -/
def raxIterPairs (edges : List Nat) (ch : List raxNode) : List (List Nat) :=
  match edges, ch with
  | e :: es, c :: cs => (raxIterKeys c).map (fun q => e :: q) ++ raxIterPairs es cs
  | _, _ => []

end

mutual

/-- Modelled from the spec: the visit sequence of a complete backward
iteration (seek the rightmost key, then raxPrev until EOF); spec section
4.6 says prev is the mirror image of next, using the largest child and
the previous index, and the key of a node is visited after its subtree. -/
def raxIterKeysRev (n : raxNode) : List (List Nat) :=
  match n with
  | .mk k ic edges ch =>
    (if ic then (raxIterListRev ch).map (fun q => edges ++ q)
     else raxIterPairsRev edges ch) ++
      (if k.isSome then [([] : List Nat)] else [])

/-- Backward exploration of the single child list of a compressed node. -/
def raxIterListRev (ch : List raxNode) : List (List Nat) :=
  match ch with
  | [] => []
  | c :: _ => raxIterKeysRev c

/-- Backward exploration of the (edge byte, child) pairs of a normal node,
largest slot first. -/
def raxIterPairsRev (edges : List Nat) (ch : List raxNode) : List (List Nat) :=
  match edges, ch with
  | e :: es, c :: cs =>
    raxIterPairsRev es cs ++ (raxIterKeysRev c).map (fun q => e :: q)
  | _, _ => []

end

mutual

/-- Structural well-formedness together with the edge-order invariant of
the spec data model (section 3): a compressed node has at least two edge
bytes and exactly one child; a normal node has as many children as edge
bytes and its edge bytes are strictly ascending as unsigned values. -/
def wfSorted (n : raxNode) : Bool :=
  match n with
  | .mk _ ic edges ch =>
    (if ic then decide (2 ≤ edges.length) && decide (ch.length = 1)
     else ascending edges && decide (ch.length = edges.length)) &&
      wfSortedList ch

/-- wfSorted on every node of a list. -/
def wfSortedList (ch : List raxNode) : Bool :=
  match ch with
  | [] => true
  | c :: cs => wfSorted c && wfSortedList cs

end

/-- A node that the maximal-compression invariant (spec invariant 4) talks
about: not a key and exactly one child, i.e. compressed, or normal of
size one.  This is the break test of the reclaim and recompression loops
of raxRemove. -/
def collapsible (n : raxNode) : Bool :=
  !n.iskey && (n.iscompr || n.size == 1)

mutual

/-- Checker for the maximal-compression invariant: no chain of two or more
consecutive non-key single-child nodes, anywhere in the subtree. -/
def maxCompressed (n : raxNode) : Bool :=
  match n with
  | .mk k ic edges ch =>
    (!(collapsible (.mk k ic edges ch)) ||
      ch.all (fun c => !(collapsible c))) && maxCompressedList ch

/-- maxCompressed on every node of a list. -/
def maxCompressedList (ch : List raxNode) : Bool :=
  match ch with
  | [] => true
  | c :: cs => maxCompressed c && maxCompressedList cs

end

/-- The reference dictionary of the spec (section 8, model equivalence):
the hash table of rax-test.c reduced to its map semantics (htAdd updates
in place and reports whether the key was new); keys are byte lists,
bytes compared exactly (memcmp). -/
def htAdd (l : List (List Nat × Option Nat)) (s : List Nat) (v : Option Nat) :
    List (List Nat × Option Nat) × Bool :=
  match l with
  | [] => ([(s, v)], true)
  | (k, w) :: rest =>
    if k = s then ((k, v) :: rest, false)
    else
      let r := htAdd rest s v
      ((k, w) :: r.1, r.2)

/-- Lookup in the reference dictionary; none is the not-found sentinel. -/
def htFind (l : List (List Nat × Option Nat)) (s : List Nat) : Option (Option Nat) :=
  match l with
  | [] => none
  | (k, w) :: rest => if k = s then some w else htFind rest s

/-- Locate the subtree at the end of a list of descent slots. -/
def subtreeAt : raxNode → List Nat → raxNode
  | n, [] => n
  | n, i :: p => subtreeAt (n.children.getD i default) p

/-- Replace the subtree at the end of a list of descent slots, leaving the
rest of the tree unchanged. -/
def replaceAt : raxNode → List Nat → raxNode → raxNode
  | _, [], x => x
  | n, i :: p, x => withChildAt n i (replaceAt (n.children.getD i default) p x)

/-
Byte-layout model for claims C1 and C5.  These definitions transcribe the
size and offset arithmetic of rax.c for the x86-64 SysV ABI:
sizeof(raxNode) = 4 (the bit-field header) and sizeof(void* ) =
sizeof(raxNode* ) = 8.  Offsets are byte distances from the start of the
node allocation.
-/

/-- sizeof(raxNode): the 32-bit header of packed bit fields. -/
def sizeofRaxNodeHeader : Nat := 4

/-- sizeof(void pointer) on the target platform. -/
def sizeofPtr : Nat := 8

/-- raxNodeCurrentLength (part_002 lines 161-165): header + size bytes +
one child pointer if compressed else size child pointers + one value
pointer if iskey and not isnull. -/
def raxNodeCurrentLength (iskey isnull iscompr : Bool) (size : Nat) : Nat :=
  sizeofRaxNodeHeader + size +
    (if iscompr then sizeofPtr else sizeofPtr * size) +
    (if iskey && !isnull then sizeofPtr else 0)

/-- Offset at which raxSetData (part_002 lines 176-186) writes a non-NULL
value: raxNodeCurrentLength(n) - sizeof(void* ), computed from the header
bits as they are at the moment of the call (isnull is cleared only after
the write). -/
def raxSetDataWriteOffset (iskey isnull iscompr : Bool) (size : Nat) : Nat :=
  raxNodeCurrentLength iskey isnull iscompr size - sizeofPtr

/-- Offset of the last child pointer, raxNodeLastChildPtr (part_002 lines
269-274): the current length minus one pointer, minus the value pointer
when present. -/
def raxNodeLastChildPtrOffset (iskey isnull iscompr : Bool) (size : Nat) : Nat :=
  raxNodeCurrentLength iskey isnull iscompr size - sizeofPtr -
    (if iskey && !isnull then sizeofPtr else 0)

/-
Pointer model for claim C1.  raxCompressNode (part_002 lines 287-309)
receives raxNode **child, the address of a pointer variable in the
caller frame.  Line 306, *child = raxNewNode(0), stores the address of
the fresh leaf into that variable; line 307,
memcpy(childfield,&child,sizeof(child)), copies sizeof(raxNode** ) = 8
bytes from &child, that is, the value of the parameter child itself --
the address of the caller variable -- into the child slot of the node.
The two addresses involved are modelled as plain numbers.
-/

/-- Addresses involved in one raxCompressNode call: the value of the child
parameter (address of the caller variable) and the address returned by
raxNewNode(0). -/
structure compressCall where
  callerVarAddr : Nat
  leafAddr : Nat

/-- Pointer value left in the child slot of the compressed node by line
307 of part_002: the bytes copied from &child are the value of the
parameter, i.e. the address of the caller variable. -/
def raxCompressNodeChildSlot (c : compressCall) : Nat := c.callerVarAddr

/-- Pointer value returned to the caller through *child by line 306 of
part_002: the address of the fresh leaf. -/
def raxCompressNodeReturnedLeaf (c : compressCall) : Nat := c.leafAddr

/-
General lemmas about the embedded operations.
-/

theorem sizeOf_lt_of_mem_children {c : raxNode} {k : Option (Option Nat)}
    {ic : Bool} {e : List Nat} {ch : List raxNode} (h : c ∈ ch) :
    sizeOf c < sizeOf (raxNode.mk k ic e ch) := by
  have := List.sizeOf_lt_of_mem h
  simp only [raxNode.mk.sizeOf_spec]
  omega

theorem getD_mem {ch : List raxNode} {j : Nat} (h : j < ch.length) (d : raxNode) :
    ch.getD j d ∈ ch := by
  induction ch generalizing j with
  | nil => simp at h
  | cons c cs ih =>
    cases j with
    | zero => simp [List.getD]
    | succ j =>
      simp only [List.getD_cons_succ]
      exact List.mem_cons_of_mem _ (ih (by simpa using h))

theorem comprMatchLen_le_right : ∀ e s : List Nat, comprMatchLen e s ≤ s.length
  | [], _ => by simp [comprMatchLen]
  | _ :: _, [] => by simp [comprMatchLen]
  | e :: es, b :: bs => by
    simp only [comprMatchLen]
    split
    · have := comprMatchLen_le_right es bs
      simp only [List.length_cons]
      omega
    · simp

theorem comprMatchLen_le_left : ∀ e s : List Nat, comprMatchLen e s ≤ e.length
  | [], _ => by simp [comprMatchLen]
  | _ :: _, [] => by simp [comprMatchLen]
  | e :: es, b :: bs => by
    simp only [comprMatchLen]
    split
    · have := comprMatchLen_le_left es bs
      simp only [List.length_cons]
      omega
    · simp

theorem raxLowWalk_default (s : List Nat) :
    raxLowWalk default s = ⟨0, default, 0, []⟩ := by
  cases s <;> simp [raxLowWalk, default, Inhabited.default]

theorem walkChild_eq (ch : List raxNode) (j : Nat) (s : List Nat) :
    walkChild ch j s = raxLowWalk (ch.getD j default) s := by
  induction ch generalizing j with
  | nil =>
    have hd : ([] : List raxNode).getD j default = default := by simp [List.getD]
    rw [hd, raxLowWalk_default]
    simp [walkChild]
  | cons c cs ih =>
    cases j with
    | zero => simp [walkChild, List.getD]
    | succ j => simpa [walkChild, List.getD_cons_succ] using ih j

theorem insChild_eq (ch : List raxNode) (j : Nat) (s : List Nat) (v : Option Nat)
    (h : j < ch.length) : insChild ch j s v = insGo (ch.getD j default) s v := by
  induction ch generalizing j with
  | nil => simp at h
  | cons c cs ih =>
    cases j with
    | zero => simp [insChild, List.getD]
    | succ j =>
      simp only [insChild, List.getD_cons_succ]
      exact ih j (by simpa using h)

theorem getD_eq_default {ch : List raxNode} {j : Nat} (h : ¬ j < ch.length)
    (d : raxNode) : ch.getD j d = d := by
  induction ch generalizing j with
  | nil => simp [List.getD]
  | cons c cs ih =>
    cases j with
    | zero => simp at h
    | succ j =>
      simp only [List.getD_cons_succ]
      exact ih (by simp at h ⊢; omega)

/-- Strong induction over the node structure: to prove a property of every
node it suffices to prove it for a node assuming it for all children. -/
theorem raxNode.strongInduction {P : raxNode → Prop}
    (step : ∀ k ic e ch, (∀ c ∈ ch, P c) → P (.mk k ic e ch)) : ∀ n, P n
  | .mk k ic e ch => step k ic e ch (fun c hc => raxNode.strongInduction step c)
termination_by n => sizeOf n
decreasing_by exact sizeOf_lt_of_mem_children hc

/-- Correspondence between the walk and the insertion recursion for claim
C7: when the walk stops inside a compressed node having consumed the
whole key at a positive split position, the insertion replaces exactly
the stop node by the ALGORITHM 2 result, adds one node and one element,
and reports a fresh insertion, never reaching the suffix-append loop. -/
theorem insGo_prefix_split : ∀ (n : raxNode) (s : List Nat) (v : Option Nat),
    (raxLowWalk n s).stop.iscompr = true →
    (raxLowWalk n s).matched = s.length →
    0 < (raxLowWalk n s).split →
    insGo n s v =
      some (replaceAt n ((raxLowWalk n s).path.map Prod.snd)
        (algo2 (raxLowWalk n s).stop (raxLowWalk n s).split v), true, 1, 1) := by
  intro n
  induction n using raxNode.strongInduction with
  | step k ic edges ch IH =>
    intro s v hic hm hj
    cases s with
    | nil => simp [raxLowWalk] at hj
    | cons b s1 =>
      cases hE : edges.isEmpty with
      | true =>
        rw [show raxLowWalk (.mk k ic edges ch) (b :: s1) =
            ⟨0, .mk k ic edges ch, 0, []⟩ from by simp [raxLowWalk, hE]] at hj
        simp at hj
      | false =>
        cases hic2 : ic with
        | false =>
          subst hic2
          cases hfind : edges.findIdx? (fun e => chrMatch e b) with
          | none =>
            rw [show raxLowWalk (.mk k false edges ch) (b :: s1) =
                ⟨0, .mk k false edges ch, 0, []⟩ from by
              simp [raxLowWalk, hE, hfind]] at hj
            simp at hj
          | some j =>
            have hw : raxLowWalk (.mk k false edges ch) (b :: s1) =
                ⟨1 + (walkChild ch j s1).matched, (walkChild ch j s1).stop,
                  (walkChild ch j s1).split,
                  (.mk k false edges ch, j) :: (walkChild ch j s1).path⟩ := by
              simp [raxLowWalk, hE, hfind]
            by_cases hlen : j < ch.length
            · rw [hw] at hic hm hj ⊢
              rw [walkChild_eq] at hic hm hj ⊢
              have ih := IH (ch.getD j default) (getD_mem hlen default) s1 v hic
                (by simp at hm ⊢; omega) hj
              simp only [insGo, hfind, hE, insChild_eq ch j s1 v hlen, ih,
                Option.map_some]
              simp [replaceAt, raxNode.children, List.getD]
            · rw [hw, walkChild_eq, getD_eq_default hlen, raxLowWalk_default] at hj
              simp at hj
        | true =>
          subst hic2
          by_cases hfull : comprMatchLen edges (b :: s1) = edges.length
          · have hw : raxLowWalk (.mk k true edges ch) (b :: s1) =
                ⟨comprMatchLen edges (b :: s1) +
                    (walkChild ch 0 ((b :: s1).drop (comprMatchLen edges (b :: s1)))).matched,
                  (walkChild ch 0 ((b :: s1).drop (comprMatchLen edges (b :: s1)))).stop,
                  (walkChild ch 0 ((b :: s1).drop (comprMatchLen edges (b :: s1)))).split,
                  (.mk k true edges ch, 0) ::
                    (walkChild ch 0 ((b :: s1).drop (comprMatchLen edges (b :: s1)))).path⟩ := by
              simp [raxLowWalk, hE, hfull]
            by_cases hch : 0 < ch.length
            · rw [hw] at hic hm hj ⊢
              rw [walkChild_eq] at hic hm hj ⊢
              have ih := IH (ch.getD 0 default) (getD_mem hch default)
                ((b :: s1).drop (comprMatchLen edges (b :: s1))) v hic
                (by simp only [walkRes.matched] at hm
                    simp only [List.length_drop]
                    have := comprMatchLen_le_right edges (b :: s1)
                    simp at hm ⊢
                    omega) hj
              have hgo : insGo (.mk k true edges ch) (b :: s1) v =
                  (insChild ch 0 ((b :: s1).drop (comprMatchLen edges (b :: s1))) v).map
                    (fun r => (withChildAt (.mk k true edges ch) 0 r.1, r.2)) := by
                simp only [insGo, hE]
                rw [if_neg (by simp), if_pos hfull]
                simp
              rw [hgo, insChild_eq ch 0 _ v hch, ih]
              simp [replaceAt, raxNode.children, List.getD]
            · rw [hw, walkChild_eq, getD_eq_default (by omega), raxLowWalk_default] at hj
              simp at hj
          · have hw : raxLowWalk (.mk k true edges ch) (b :: s1) =
                ⟨comprMatchLen edges (b :: s1), .mk k true edges ch,
                  comprMatchLen edges (b :: s1), []⟩ := by
              simp [raxLowWalk, hE, hfull]
            rw [hw] at hm hj ⊢
            have hm2 : comprMatchLen edges (b :: s1) = (b :: s1).length := hm
            have hgo : insGo (.mk k true edges ch) (b :: s1) v =
                some (algo2 (.mk k true edges ch) (comprMatchLen edges (b :: s1)) v,
                  true, 1, 1) := by
              simp only [insGo, hE]
              rw [if_neg (by simp), if_neg hfull, if_pos hm2]
              simp
            rw [hgo]
            simp [replaceAt]

/-- C7: when the walk for key k stops inside a compressed node with all of
k consumed and a positive split position (k a proper prefix of the
chain), raxInsert replaces the stop node, in place in the parent link, by
a trimmed node holding the first split_pos bytes (compressed iff longer
than 1) that inherits the key status and value of the original, whose
only child is a postfix node holding the bytes from split_pos on
(compressed iff longer than 1), marked as a key with the new value and
keeping the original child; the node count and the element count each
grow by one and the call returns inserted_new, without falling through
to the suffix-append phase. -/
theorem raxInsert_compressed_prefix (t : rax) (s : List Nat) (v : Option Nat)
    (hic : (raxLowWalk t.head s).stop.iscompr = true)
    (hm : (raxLowWalk t.head s).matched = s.length)
    (hj : 0 < (raxLowWalk t.head s).split) :
    raxInsert t s v =
      some (⟨replaceAt t.head ((raxLowWalk t.head s).path.map Prod.snd)
          (.mk (raxLowWalk t.head s).stop.key
            (decide (1 < (raxLowWalk t.head s).split))
            ((raxLowWalk t.head s).stop.edges.take (raxLowWalk t.head s).split)
            [.mk (some v)
              (decide (1 <
                (raxLowWalk t.head s).stop.size - (raxLowWalk t.head s).split))
              ((raxLowWalk t.head s).stop.edges.drop (raxLowWalk t.head s).split)
              (raxLowWalk t.head s).stop.children]),
        t.numele + 1, t.numnodes + 1⟩, true) := by
  rw [raxInsert, insGo_prefix_split t.head s v hic hm hj]
  cases hstop : (raxLowWalk t.head s).stop with
  | mk k0 ic0 e0 ch0 =>
    simp [algo2, raxNode.key, raxNode.edges, raxNode.children, raxNode.size]

/-- Witness for raxInsert_compressed_prefix: inserting ANNI into the tree
holding only ANNIBALE (a compressed root chain) splits the chain at
position 4. -/
theorem raxInsert_compressed_prefix_witness :
    (raxLowWalk (rax.mk
        (.mk none true [65, 78, 78, 73, 66, 65, 76, 69]
          [.mk (some (some 9)) false [] []]) 1 2).head
        [65, 78, 78, 73]).stop.iscompr = true ∧
    raxInsert (rax.mk
        (.mk none true [65, 78, 78, 73, 66, 65, 76, 69]
          [.mk (some (some 9)) false [] []]) 1 2)
        [65, 78, 78, 73] (some 5) =
      some (⟨.mk none true [65, 78, 78, 73]
          [.mk (some (some 5)) true [66, 65, 76, 69]
            [.mk (some (some 9)) false [] []]], 2, 3⟩, true) := by
  constructor
  · simp [raxLowWalk, walkChild, comprMatchLen, chrMatch, signedChar,
      raxNode.iscompr]
  · rw [ raxInsert_compressed_prefix _ _ (some 5) ?_ ?_ ?_]
    · simp [raxLowWalk, walkChild, comprMatchLen, chrMatch, signedChar,
        replaceAt, raxNode.key, raxNode.edges, raxNode.children, raxNode.size]
    · simp [raxLowWalk, walkChild, comprMatchLen, chrMatch, signedChar,
        raxNode.iscompr]
    · simp [raxLowWalk, walkChild, comprMatchLen, chrMatch, signedChar]
    · simp [raxLowWalk, walkChild, comprMatchLen, chrMatch, signedChar]

/-- C8: when the walker matches fewer than the key length characters or
the stop node is not a key, raxRemove returns not_found (0) and the tree
is unchanged: the same root, element count and node count are handed
back, no node having been modified, freed or allocated. -/
theorem raxRemove_notfound (t : rax) (s : List Nat)
    (h : (raxLowWalk t.head s).matched < s.length ∨
      (raxLowWalk t.head s).stop.iskey = false) :
    raxRemove t s = (t, false) := by
  have hc : (raxLowWalk t.head s).matched ≠ s.length ∨
      ¬ (raxLowWalk t.head s).stop.iskey = true := by
    rcases h with h | h
    · exact Or.inl (by omega)
    · exact Or.inr (by simp [h])
  simp only [raxRemove]
  rw [if_pos hc]

/-- Witness for raxRemove_notfound: removing the one-byte key A from a
tree holding only AB stops at the root chain, which is not a key. -/
theorem raxRemove_notfound_witness :
    (raxLowWalk (rax.mk
        (.mk none true [65, 66] [.mk (some (some 1)) false [] []]) 1 2).head
        [65]).stop.iskey = false ∧
    raxRemove (rax.mk
        (.mk none true [65, 66] [.mk (some (some 1)) false [] []]) 1 2) [65] =
      ((rax.mk (.mk none true [65, 66] [.mk (some (some 1)) false [] []]) 1 2),
        false) := by
  refine ⟨?_, raxRemove_notfound _ _ (Or.inr ?_)⟩ <;>
    simp [raxLowWalk, walkChild, comprMatchLen, chrMatch, signedChar,
      raxNode.iskey, raxNode.key]

theorem raxFind_nil (t : rax) : raxFind t [] = t.head.key := by
  cases t with
  | mk hd ne nn => cases hd <;> simp [raxFind, raxLowWalk]

theorem withKey_key (n : raxNode) (v : Option Nat) : (n.withKey v).key = some v := by
  cases n; rfl

theorem clearKey_key (n : raxNode) : n.clearKey.key = none := by
  cases n; rfl

theorem rebuild_nil (x : raxNode) : rebuild [] x = x := rfl

theorem recompress_nil (x : raxNode) (hx : x.key = none) :
    (recompress x []).1.key = none ∧ (recompress x []).2.1 = [] := by
  simp only [recompress, climb]
  split
  · exact ⟨rfl, rfl⟩
  · exact ⟨hx, rfl⟩

/-- C10: on a tree whose root is not yet a key, inserting the zero-length
key stores it at the root node and returns inserted_new; no node is
allocated so the node count is unchanged while the element count grows
by one; a subsequent raxFind with the zero-length key returns the value;
and the zero-length key can then be removed by raxRemove like any other
key, remove reporting success, restoring the element count and leaving a
tree in which the zero-length key is no longer found. -/
theorem raxInsert_empty_key (t : rax) (v : Option Nat)
    (h : t.head.iskey = false) :
    ∃ t1 : rax,
      raxInsert t [] v = some (t1, true) ∧
      t1.numnodes = t.numnodes ∧
      t1.numele = t.numele + 1 ∧
      raxFind t1 [] = some v ∧
      (raxRemove t1 []).2 = true ∧
      (raxRemove t1 []).1.numele = t.numele ∧
      raxFind (raxRemove t1 []).1 [] = none := by
  obtain ⟨hd, ne, nn⟩ := t
  obtain ⟨k, ic, e, ch⟩ := hd
  have hk : k = none := by
    cases k
    · rfl
    · simp [raxNode.iskey, raxNode.key] at h
  subst hk
  have hwalk : raxLowWalk (raxNode.mk (some v) ic e ch) [] =
      ⟨0, .mk (some v) ic e ch, 0, []⟩ := by simp [raxLowWalk]
  have hcond : ¬ ((raxLowWalk (raxNode.mk (some v) ic e ch) []).matched ≠
      ([] : List Nat).length ∨
      ¬ (raxLowWalk (raxNode.mk (some v) ic e ch) []).stop.iskey = true) := by
    rw [hwalk]
    simp [raxNode.iskey, raxNode.key]
  refine ⟨⟨.mk (some v) ic e ch, ne + 1, nn⟩, ?_, rfl, rfl, ?_, ?_, ?_, ?_⟩
  · simp [raxInsert, insGo, raxNode.key, raxNode.withKey]
  · rw [raxFind_nil]
    simp [raxNode.key]
  · simp only [raxRemove, hwalk]
    rw [if_neg (by simp [raxNode.iskey, raxNode.key])]
    simp only [raxNode.clearKey]
    split
    · rfl
    · split
      · rfl
      · rfl
  · simp only [raxRemove, hwalk]
    rw [if_neg (by simp [raxNode.iskey, raxNode.key])]
    simp only [raxNode.clearKey]
    split
    · rfl
    · split
      · rfl
      · rfl
  · simp only [raxRemove, hwalk]
    rw [if_neg (by simp [raxNode.iskey, raxNode.key])]
    simp only [raxNode.clearKey]
    split
    · rw [raxFind_nil]
      simp [raxNode.key]
    · split
      · rw [raxFind_nil]
        simp only [List.reverse_nil]
        have hrc := recompress_nil (.mk none ic e ch) rfl
        rw [hrc.2, rebuild_nil]
        exact hrc.1
      · rw [raxFind_nil]
        simp [rebuild_nil, raxNode.key]

/-- Witness for raxInsert_empty_key: the freshly created empty tree. -/
theorem raxInsert_empty_key_witness :
    raxNew.head.iskey = false ∧
    (∃ t1 : rax,
      raxInsert raxNew [] (some 3) = some (t1, true) ∧
      t1.numnodes = raxNew.numnodes ∧
      t1.numele = raxNew.numele + 1 ∧
      raxFind t1 [] = some (some 3) ∧
      (raxRemove t1 []).2 = true ∧
      (raxRemove t1 []).1.numele = raxNew.numele ∧
      raxFind (raxRemove t1 []).1 [] = none) :=
  ⟨rfl, raxInsert_empty_key raxNew (some 3) rfl⟩

/-- C1 (refuting the claim as stated, see RESULTS): after raxCompressNode
returns, the child pointer stored inside the compressed node is the
value of the child parameter -- the address of the pointer variable in
the caller frame -- and not the freshly allocated leaf returned through
*child; at any two distinct concrete addresses the slot and the leaf
differ.  Line 307 of part_002 copies from &child instead of child. -/
theorem raxCompressNode_child_slot_bug :
    raxCompressNodeChildSlot ⟨4096, 8192⟩ = 4096 ∧
    raxCompressNodeReturnedLeaf ⟨4096, 8192⟩ = 8192 ∧
    raxCompressNodeChildSlot ⟨4096, 8192⟩ ≠
      raxCompressNodeReturnedLeaf ⟨4096, 8192⟩ :=
  ⟨rfl, rfl, by decide⟩

/-- C4 (refuting the claim as stated): inserting the key 0x61 and then
the key 0x80 leaves the root with edge bytes [0x80, 0x61], which are not
strictly ascending as unsigned bytes; raxAddChild compares the stored
unsigned bytes against the new edge byte through the signed parameter
char c, so 0x80 (value -128 as char) is inserted before 0x61. -/
theorem raxAddChild_signed_order_bug :
    raxInsert raxNew [97] (some 1) =
      some (⟨.mk none false [97] [.mk (some (some 1)) false [] []], 1, 2⟩,
        true) ∧
    raxInsert ⟨.mk none false [97] [.mk (some (some 1)) false [] []], 1, 2⟩
        [128] (some 2) =
      some (⟨.mk none false [128, 97]
          [.mk (some (some 2)) false [] [],
           .mk (some (some 1)) false [] []], 2, 3⟩, true) ∧
    (⟨.mk none false [128, 97]
        [.mk (some (some 2)) false [] [],
         .mk (some (some 1)) false [] []], 2, 3⟩ : rax).head.edges =
      [128, 97] ∧
    ascending [128, 97] = false := by
  refine ⟨?_, ?_, rfl, by decide⟩
  · simp [raxInsert, raxNew, raxNewNode, insGo, appendLoop, raxAddChild,
      addChildPos, signedChar, chrMatch, raxNode.size, raxNode.edges,
      raxNode.iskey, raxNode.key, raxNode.withKey, withChildAt,
      RAX_NODE_MAX_SIZE]
  · simp [raxInsert, raxNewNode, insGo, insChild, appendLoop, raxAddChild,
      addChildPos, signedChar, chrMatch, comprMatchLen, raxNode.size,
      raxNode.edges, raxNode.iskey, raxNode.key, raxNode.withKey, withChildAt,
      RAX_NODE_MAX_SIZE]
    norm_num [List.findIdx_cons, List.insertIdx]

/-- C2 (refuting the claim as stated): one insertion of the key 0x80 with
value 1 makes the reference dictionary hold that key with value 1, and
the key is in the stored key set of the tree, yet raxFind returns the
raxNotFound sentinel: the walk compares the stored byte through a char
pointer, so byte 0x80 never matches itself. -/
theorem raxFind_model_equivalence_bug :
    raxInsert raxNew [128] (some 1) =
      some (⟨.mk none false [128] [.mk (some (some 1)) false [] []], 1, 2⟩,
        true) ∧
    htAdd [] [128] (some 1) = ([([128], some 1)], true) ∧
    htFind [([128], some 1)] [128] = some (some 1) ∧
    containsKey (.mk none false [128] [.mk (some (some 1)) false [] []])
      [128] = true ∧
    raxFind ⟨.mk none false [128] [.mk (some (some 1)) false [] []], 1, 2⟩
      [128] = none := by
  refine ⟨?_, by simp [htAdd], by simp [htFind], ?_, ?_⟩
  · simp [raxInsert, raxNew, raxNewNode, insGo, appendLoop, raxAddChild,
      addChildPos, signedChar, chrMatch, raxNode.size, raxNode.edges,
      raxNode.iskey, raxNode.key, raxNode.withKey, withChildAt,
      RAX_NODE_MAX_SIZE]
  · simp [containsKey, raxNode.iskey, raxNode.key]
  · simp [raxFind, raxLowWalk, walkChild, chrMatch, signedChar, raxNode.key]

/-- C6 (refuting the claim as stated): the tree already contains the key
0x80 (it is in the stored key set), yet re-inserting it returns
inserted_new (1) instead of updated_existing (0), grows the element
count from 1 to 2, and leaves two children with the same edge byte: the
walk never matches the stored byte 0x80 against the key byte 0x80
because of the signed char comparison. -/
theorem raxInsert_reinsert_bug :
    raxInsert raxNew [128] (some 1) =
      some (⟨.mk none false [128] [.mk (some (some 1)) false [] []], 1, 2⟩,
        true) ∧
    containsKey (.mk none false [128] [.mk (some (some 1)) false [] []])
      [128] = true ∧
    raxInsert ⟨.mk none false [128] [.mk (some (some 1)) false [] []], 1, 2⟩
        [128] (some 2) =
      some (⟨.mk none false [128, 128]
          [.mk (some (some 2)) false [] [],
           .mk (some (some 1)) false [] []], 2, 3⟩, true) := by
  refine ⟨?_, ?_, ?_⟩
  · simp [raxInsert, raxNew, raxNewNode, insGo, appendLoop, raxAddChild,
      addChildPos, signedChar, chrMatch, raxNode.size, raxNode.edges,
      raxNode.iskey, raxNode.key, raxNode.withKey, withChildAt,
      RAX_NODE_MAX_SIZE]
  · simp [containsKey, raxNode.iskey, raxNode.key]
  · simp [raxInsert, raxNewNode, insGo, insChild, appendLoop, raxAddChild,
      addChildPos, signedChar, chrMatch, comprMatchLen, raxNode.size,
      raxNode.edges, raxNode.iskey, raxNode.key, raxNode.withKey, withChildAt,
      RAX_NODE_MAX_SIZE]
    norm_num [List.findIdx_cons, List.insertIdx]

/-- C5 (refuting the claim as stated; the regtest2 scenario): after
inserting a = 100, ab = 101, abc = NULL, abcd = NULL, re-inserting abc
with the non-null value 102 reaches the update path with iskey == 1 and
isnull == 1; raxSetData then writes the value at
raxNodeCurrentLength - 8, which on such a node is exactly the offset of
the last child pointer (the node has no value slot and raxInsert never
reallocates it on this path), clobbering the pointer to the abcd
subtree; the model returns none for that undefined write.  The offset
computation is shown for the abc node (iskey, isnull, normal, size 1). -/
theorem raxInsert_null_update_bug :
    raxInsert raxNew [97] (some 100) =
      some (⟨.mk none false [97] [.mk (some (some 100)) false [] []], 1, 2⟩,
        true) ∧
    raxInsert ⟨.mk none false [97] [.mk (some (some 100)) false [] []], 1, 2⟩
        [97, 98] (some 101) =
      some (⟨.mk none false [97]
          [.mk (some (some 100)) false [98]
            [.mk (some (some 101)) false [] []]], 2, 3⟩, true) ∧
    raxInsert ⟨.mk none false [97]
        [.mk (some (some 100)) false [98]
          [.mk (some (some 101)) false [] []]], 2, 3⟩
        [97, 98, 99] none =
      some (⟨.mk none false [97]
          [.mk (some (some 100)) false [98]
            [.mk (some (some 101)) false [99]
              [.mk (some none) false [] []]]], 3, 4⟩, true) ∧
    raxInsert ⟨.mk none false [97]
        [.mk (some (some 100)) false [98]
          [.mk (some (some 101)) false [99]
            [.mk (some none) false [] []]]], 3, 4⟩
        [97, 98, 99, 100] none =
      some (⟨.mk none false [97]
          [.mk (some (some 100)) false [98]
            [.mk (some (some 101)) false [99]
              [.mk (some none) false [100]
                [.mk (some none) false [] []]]]], 4, 5⟩, true) ∧
    raxInsert ⟨.mk none false [97]
        [.mk (some (some 100)) false [98]
          [.mk (some (some 101)) false [99]
            [.mk (some none) false [100]
              [.mk (some none) false [] []]]]], 4, 5⟩
        [97, 98, 99] (some 102) = none ∧
    raxSetDataWriteOffset true true false 1 =
      raxNodeLastChildPtrOffset true true false 1 := by
  refine ⟨?_, ?_, ?_, ?_, ?_, by decide⟩ <;>
    simp [raxInsert, raxNew, raxNewNode, insGo, insChild, appendLoop,
      raxAddChild, addChildPos, signedChar, chrMatch, comprMatchLen,
      raxNode.size, raxNode.edges, raxNode.iskey, raxNode.key,
      raxNode.withKey, withChildAt, RAX_NODE_MAX_SIZE]

/-- C3 (refuting the claim as stated): insert FOO = 1 and FOOBAR = 2,
then remove FOO.  The walk stops at the compressed BAR node, whose size
is 3, so raxRemove sets trycompress only when the stop node has size 1
and never attempts recompression; the result is the chain FOO -> BAR ->
leaf in which the root and its only child are both non-key single-child
(compressed) nodes -- exactly the chain of two consecutive non-key
single-child nodes that the claim rules out (the code comment at
part_002 lines 864-874 promises FOOBAR for this very input). -/
theorem raxRemove_no_recompression_bug :
    raxInsert raxNew [70, 79, 79] (some 1) =
      some (⟨.mk none true [70, 79, 79] [.mk (some (some 1)) false [] []],
        1, 2⟩, true) ∧
    raxInsert ⟨.mk none true [70, 79, 79]
        [.mk (some (some 1)) false [] []], 1, 2⟩
        [70, 79, 79, 66, 65, 82] (some 2) =
      some (⟨.mk none true [70, 79, 79]
          [.mk (some (some 1)) true [66, 65, 82]
            [.mk (some (some 2)) false [] []]], 2, 3⟩, true) ∧
    raxRemove ⟨.mk none true [70, 79, 79]
        [.mk (some (some 1)) true [66, 65, 82]
          [.mk (some (some 2)) false [] []]], 2, 3⟩ [70, 79, 79] =
      (⟨.mk none true [70, 79, 79]
          [.mk none true [66, 65, 82]
            [.mk (some (some 2)) false [] []]], 1, 3⟩, true) ∧
    collapsible (.mk none true [70, 79, 79]
      [.mk none true [66, 65, 82] [.mk (some (some 2)) false [] []]]) =
      true ∧
    collapsible (.mk none true [66, 65, 82]
      [.mk (some (some 2)) false [] []]) = true ∧
    maxCompressed (.mk none true [70, 79, 79]
      [.mk none true [66, 65, 82] [.mk (some (some 2)) false [] []]]) =
      false := by
  refine ⟨?_, ?_, ?_, ?_, ?_, ?_⟩
  · simp [raxInsert, raxNew, raxNewNode, insGo, appendLoop, raxAddChild,
      addChildPos, signedChar, chrMatch, raxNode.size, raxNode.edges,
      raxNode.iskey, raxNode.key, raxNode.withKey, withChildAt,
      RAX_NODE_MAX_SIZE]
  · simp [raxInsert, raxNewNode, insGo, insChild, appendLoop, raxAddChild,
      addChildPos, signedChar, chrMatch, comprMatchLen, raxNode.size,
      raxNode.edges, raxNode.iskey, raxNode.key, raxNode.withKey, withChildAt,
      RAX_NODE_MAX_SIZE]
  · simp [raxRemove, raxLowWalk, walkChild, comprMatchLen, chrMatch,
      signedChar, raxNode.clearKey, raxNode.size, raxNode.edges,
      raxNode.iskey, raxNode.key, raxNode.iscompr, pruneLoop, climb,
      chainScan, recompress, rebuild, raxRemoveChild, withChildAt,
      collapsible, List.getD]
  · simp [collapsible, raxNode.iskey, raxNode.key, raxNode.iscompr]
  · simp [collapsible, raxNode.iskey, raxNode.key, raxNode.iscompr]
  · simp [maxCompressed, maxCompressedList, collapsible, raxNode.iskey,
      raxNode.key, raxNode.iscompr, raxNode.size, raxNode.edges]

theorem ascending_pairwise : ∀ l : List Nat,
    ascending l = true → List.Pairwise (· < ·) l
  | [], _ => List.Pairwise.nil
  | [a], _ => List.pairwise_singleton _ a
  | a :: b :: t, h => by
    simp only [ascending, Bool.and_eq_true, decide_eq_true_eq] at h
    have ih := ascending_pairwise (b :: t) h.2
    refine List.pairwise_cons.2 ⟨?_, ih⟩
    intro x hx
    rcases List.mem_cons.1 hx with rfl | hx
    · exact h.1
    · have hb := (List.pairwise_cons.1 ih).1 x hx
      omega

theorem lex_append_left {p k q : List Nat} (h : List.Lex (· < ·) k q) :
    List.Lex (· < ·) (p ++ k) (p ++ q) := by
  induction p with
  | nil => exact h
  | cons a p ih => exact List.Lex.cons ih

theorem lex_irrefl : ∀ l : List Nat, ¬ List.Lex (· < ·) l l := by
  intro l
  induction l with
  | nil => intro h; cases h
  | cons a l ih =>
    intro h
    cases h with
    | rel h => omega
    | cons h => exact ih h

theorem wfSortedList_mem : ∀ (ch : List raxNode) (c : raxNode),
    wfSortedList ch = true → c ∈ ch → wfSorted c = true := by
  intro ch
  induction ch with
  | nil => intro c _ hc; cases hc
  | cons d ds ih =>
    intro c h hc
    simp only [wfSortedList, Bool.and_eq_true] at h
    rcases List.mem_cons.1 hc with rfl | hc
    · exact h.1
    · exact ih c h.2 hc

theorem raxIterKeys_mk (k : Option (Option Nat)) (ic : Bool) (edges : List Nat)
    (ch : List raxNode) :
    raxIterKeys (.mk k ic edges ch) =
      (if k.isSome then [([] : List Nat)] else []) ++
        (if ic then (raxIterList ch).map (fun q => edges ++ q)
         else raxIterPairs edges ch) := by
  rw [raxIterKeys.eq_def]

theorem raxIterKeysRev_mk (k : Option (Option Nat)) (ic : Bool)
    (edges : List Nat) (ch : List raxNode) :
    raxIterKeysRev (.mk k ic edges ch) =
      (if ic then (raxIterListRev ch).map (fun q => edges ++ q)
       else raxIterPairsRev edges ch) ++
        (if k.isSome then [([] : List Nat)] else []) := by
  rw [raxIterKeysRev.eq_def]

theorem raxIterList_nil : raxIterList [] = [] := by
  rw [raxIterList.eq_def]

theorem raxIterList_cons (c : raxNode) (cs : List raxNode) :
    raxIterList (c :: cs) = raxIterKeys c := by
  rw [raxIterList.eq_def]

theorem raxIterListRev_nil : raxIterListRev [] = [] := by
  rw [raxIterListRev.eq_def]

theorem raxIterListRev_cons (c : raxNode) (cs : List raxNode) :
    raxIterListRev (c :: cs) = raxIterKeysRev c := by
  rw [raxIterListRev.eq_def]

theorem raxIterPairs_cons (e : Nat) (es : List Nat) (c : raxNode)
    (cs : List raxNode) :
    raxIterPairs (e :: es) (c :: cs) =
      (raxIterKeys c).map (fun q => e :: q) ++ raxIterPairs es cs := by
  rw [raxIterPairs.eq_def]

theorem raxIterPairs_nil_left (ch : List raxNode) : raxIterPairs [] ch = [] := by
  rw [raxIterPairs.eq_def]

theorem raxIterPairs_nil_right (es : List Nat) : raxIterPairs es [] = [] := by
  rw [raxIterPairs.eq_def]
  cases es <;> rfl

theorem raxIterPairsRev_cons (e : Nat) (es : List Nat) (c : raxNode)
    (cs : List raxNode) :
    raxIterPairsRev (e :: es) (c :: cs) =
      raxIterPairsRev es cs ++ (raxIterKeysRev c).map (fun q => e :: q) := by
  rw [raxIterPairsRev.eq_def]

theorem raxIterPairsRev_nil_left (ch : List raxNode) :
    raxIterPairsRev [] ch = [] := by
  rw [raxIterPairsRev.eq_def]

theorem raxIterPairsRev_nil_right (es : List Nat) :
    raxIterPairsRev es [] = [] := by
  rw [raxIterPairsRev.eq_def]
  cases es <;> rfl

theorem wfSorted_mk (k : Option (Option Nat)) (ic : Bool) (edges : List Nat)
    (ch : List raxNode) :
    wfSorted (.mk k ic edges ch) =
      ((if ic then decide (2 ≤ edges.length) && decide (ch.length = 1)
        else ascending edges && decide (ch.length = edges.length)) &&
        wfSortedList ch) := by
  rw [wfSorted.eq_def]

theorem wfSortedList_cons (c : raxNode) (cs : List raxNode) :
    wfSortedList (c :: cs) = (wfSorted c && wfSortedList cs) := by
  rw [wfSortedList.eq_def]

theorem raxIterRev_eq : ∀ n : raxNode,
    raxIterKeysRev n = (raxIterKeys n).reverse := by
  intro n
  induction n using raxNode.strongInduction with
  | step k ic edges ch IH =>
    have hpairs : ∀ (es : List Nat) (cs : List raxNode),
        (∀ c ∈ cs, raxIterKeysRev c = (raxIterKeys c).reverse) →
        raxIterPairsRev es cs = (raxIterPairs es cs).reverse := by
      intro es
      induction es with
      | nil =>
        intro cs _
        simp [raxIterPairs_nil_left, raxIterPairsRev_nil_left]
      | cons e es ihe =>
        intro cs h
        cases cs with
        | nil => simp [raxIterPairs_nil_right, raxIterPairsRev_nil_right]
        | cons c cs =>
          have h1 := h c (List.mem_cons_self c cs)
          have h2 := ihe cs (fun d hd => h d (List.mem_cons_of_mem _ hd))
          rw [raxIterPairs_cons, raxIterPairsRev_cons, h1, h2,
            List.reverse_append, List.map_reverse]
    rw [raxIterKeys_mk, raxIterKeysRev_mk, List.reverse_append]
    cases ic with
    | true =>
      cases ch with
      | nil =>
        rw [raxIterList_nil, raxIterListRev_nil]
        cases k <;> simp
      | cons c cs =>
        rw [raxIterList_cons, raxIterListRev_cons, IH c (List.mem_cons_self c cs)]
        cases k <;> simp [List.map_reverse]
    | false =>
      rw [hpairs edges ch (fun c hc => IH c hc)]
      cases k <;> simp

theorem raxIterPairs_sorted : ∀ (es : List Nat) (cs : List raxNode),
    List.Pairwise (· < ·) es →
    (∀ c ∈ cs, List.Pairwise (List.Lex (· < ·)) (raxIterKeys c)) →
    List.Pairwise (List.Lex (· < ·)) (raxIterPairs es cs) ∧
      ∀ x ∈ raxIterPairs es cs, ∃ hd tl, x = hd :: tl ∧ hd ∈ es := by
  intro es
  induction es with
  | nil =>
    intro cs _ _
    simp [raxIterPairs_nil_left]
  | cons e es ihe =>
    intro cs hasc hK
    cases cs with
    | nil => simp [raxIterPairs_nil_right]
    | cons c cs =>
      rw [raxIterPairs_cons]
      have hc := hK c (List.mem_cons_self c cs)
      have hrest := ihe cs (List.pairwise_cons.1 hasc).2
        (fun d hd => hK d (List.mem_cons_of_mem _ hd))
      constructor
      · rw [List.pairwise_append]
        refine ⟨?_, hrest.1, ?_⟩
        · rw [List.pairwise_map]
          exact hc.imp (fun h => List.Lex.cons h)
        · intro a ha b hb
          obtain ⟨y, _, rfl⟩ := List.mem_map.1 ha
          obtain ⟨hd, tl, hbe, hmem⟩ := hrest.2 b hb
          subst hbe
          exact List.Lex.rel ((List.pairwise_cons.1 hasc).1 hd hmem)
      · intro x hx
        rcases List.mem_append.1 hx with hx | hx
        · obtain ⟨y, _, rfl⟩ := List.mem_map.1 hx
          exact ⟨e, y, rfl, List.mem_cons_self e es⟩
        · obtain ⟨hd, tl, hbe, hmem⟩ := hrest.2 x hx
          exact ⟨hd, tl, hbe, List.mem_cons_of_mem _ hmem⟩

theorem raxIterKeys_compr (k : Option (Option Nat)) (edges : List Nat)
    (ch : List raxNode) :
    raxIterKeys (.mk k true edges ch) =
      (if k.isSome then [([] : List Nat)] else []) ++
        (raxIterList ch).map (fun q => edges ++ q) := by
  rw [raxIterKeys_mk]
  simp

theorem raxIterKeys_normal (k : Option (Option Nat)) (edges : List Nat)
    (ch : List raxNode) :
    raxIterKeys (.mk k false edges ch) =
      (if k.isSome then [([] : List Nat)] else []) ++ raxIterPairs edges ch := by
  rw [raxIterKeys_mk]
  simp

theorem raxIterKeys_sorted : ∀ n : raxNode, wfSorted n = true →
    List.Pairwise (List.Lex (· < ·)) (raxIterKeys n) := by
  intro n
  induction n using raxNode.strongInduction with
  | step k ic edges ch IH =>
    intro hwf
    rw [wfSorted_mk, Bool.and_eq_true] at hwf
    have hmemwf : ∀ c ∈ ch, wfSorted c = true :=
      fun c hc => wfSortedList_mem ch c hwf.2 hc
    cases ic with
    | true =>
      have h1 := hwf.1
      simp only [if_true, Bool.and_eq_true, decide_eq_true_eq] at h1
      obtain ⟨hlen, hone⟩ := h1
      cases ch with
      | nil => simp at hone
      | cons c cs =>
        rw [raxIterKeys_compr, raxIterList_cons, List.pairwise_append]
        refine ⟨?_, ?_, ?_⟩
        · cases k <;> simp
        · rw [List.pairwise_map]
          exact (IH c (List.mem_cons_self c cs)
            (hmemwf c (List.mem_cons_self c cs))).imp
            (fun h => lex_append_left h)
        · intro a ha b hb
          have ha2 : a = [] := by
            cases k <;> simp at ha
            exact ha
          subst ha2
          obtain ⟨y, _, rfl⟩ := List.mem_map.1 hb
          cases edges with
          | nil => simp at hlen
          | cons e0 es0 => exact List.Lex.nil
    | false =>
      have h1 := hwf.1
      simp only [if_false, Bool.and_eq_true, decide_eq_true_eq,
        Bool.false_eq_true] at h1
      have hp := raxIterPairs_sorted edges ch (ascending_pairwise edges h1.1)
        (fun c hc => IH c hc (hmemwf c hc))
      rw [raxIterKeys_normal, List.pairwise_append]
      refine ⟨?_, hp.1, ?_⟩
      · cases k <;> simp
      · intro a ha b hb
        have ha2 : a = [] := by
          cases k <;> simp at ha
          exact ha
        subst ha2
        obtain ⟨hd, tl, hbe, _⟩ := hp.2 b hb
        subst hbe
        exact List.Lex.nil

theorem containsKey_nil (n : raxNode) : containsKey n [] = n.iskey := by
  rw [containsKey.eq_def]
  split <;> simp_all

theorem containsKey_compr_cons (k : Option (Option Nat)) (edges : List Nat)
    (c : raxNode) (cs : List raxNode) (b : Nat) (s' : List Nat) :
    containsKey (.mk k true edges (c :: cs)) (b :: s') =
      (edges.isPrefixOf (b :: s') &&
        containsKey c ((b :: s').drop edges.length)) := by
  rw [containsKey.eq_def]

theorem containsKey_normal_cons (k : Option (Option Nat)) (e : Nat)
    (es : List Nat) (c : raxNode) (cs : List raxNode) (b : Nat) (s' : List Nat) :
    containsKey (.mk k false (e :: es) (c :: cs)) (b :: s') =
      (if e = b then containsKey c s'
       else containsKey (.mk k false es cs) (b :: s')) := by
  rw [containsKey.eq_def]

theorem containsKey_normal_noedges (k : Option (Option Nat))
    (ch : List raxNode) (b : Nat) (s' : List Nat) :
    containsKey (.mk k false [] ch) (b :: s') = false := by
  rw [containsKey.eq_def]

theorem containsKey_normal_nochildren (k : Option (Option Nat)) (e : Nat)
    (es : List Nat) (b : Nat) (s' : List Nat) :
    containsKey (.mk k false (e :: es) []) (b :: s') = false := by
  rw [containsKey.eq_def]
  split <;> simp_all

theorem containsKey_compr_nochildren (k : Option (Option Nat))
    (edges : List Nat) (b : Nat) (s' : List Nat) :
    containsKey (.mk k true edges []) (b :: s') = false := by
  rw [containsKey.eq_def]
  split <;> simp_all

theorem raxIterPairs_heads : ∀ (es : List Nat) (cs : List raxNode)
    (x : List Nat), x ∈ raxIterPairs es cs →
    ∃ hd tl, x = hd :: tl ∧ hd ∈ es := by
  intro es
  induction es with
  | nil =>
    intro cs x hx
    rw [raxIterPairs_nil_left] at hx
    cases hx
  | cons e es ihe =>
    intro cs x hx
    cases cs with
    | nil =>
      rw [raxIterPairs_nil_right] at hx
      cases hx
    | cons c cs =>
      rw [raxIterPairs_cons] at hx
      rcases List.mem_append.1 hx with hx | hx
      · obtain ⟨y, _, rfl⟩ := List.mem_map.1 hx
        exact ⟨e, y, rfl, List.mem_cons_self e es⟩
      · obtain ⟨hd, tl, hbe, hmem⟩ := ihe cs x hx
        exact ⟨hd, tl, hbe, List.mem_cons_of_mem _ hmem⟩

theorem raxIterPairs_mem : ∀ (es : List Nat) (cs : List raxNode)
    (k : Option (Option Nat)),
    List.Pairwise (· < ·) es →
    (∀ c ∈ cs, ∀ y, y ∈ raxIterKeys c ↔ containsKey c y = true) →
    ∀ (b : Nat) (s' : List Nat),
      ((b :: s') ∈ raxIterPairs es cs ↔
        containsKey (.mk k false es cs) (b :: s') = true) := by
  intro es
  induction es with
  | nil =>
    intro cs k _ _ b s'
    rw [raxIterPairs_nil_left, containsKey_normal_noedges]
    simp
  | cons e es ihe =>
    intro cs k hasc hK b s'
    cases cs with
    | nil =>
      rw [raxIterPairs_nil_right, containsKey_normal_nochildren]
      simp
    | cons c cs =>
      rw [raxIterPairs_cons, containsKey_normal_cons]
      have hKc := hK c (List.mem_cons_self c cs)
      have hnotmem : e ∉ es := by
        intro hmem
        have := (List.pairwise_cons.1 hasc).1 e hmem
        omega
      by_cases heb : e = b
      · subst heb
        rw [if_pos rfl]
        constructor
        · intro hx
          rcases List.mem_append.1 hx with hx | hx
          · obtain ⟨y, hy, he⟩ := List.mem_map.1 hx
            simp only [List.cons.injEq, true_and] at he
            exact he ▸ (hKc y).1 hy
          · obtain ⟨hd, tl, hbe, hmem⟩ := raxIterPairs_heads es cs _ hx
            injection hbe with h1 h2
            subst h1
            exact absurd hmem hnotmem
        · intro hx
          exact List.mem_append.2 (Or.inl (List.mem_map.2 ⟨s', (hKc s').2 hx, rfl⟩))
      · rw [if_neg heb]
        rw [← ihe cs k (List.pairwise_cons.1 hasc).2
          (fun d hd => hK d (List.mem_cons_of_mem _ hd)) b s']
        constructor
        · intro hx
          rcases List.mem_append.1 hx with hx | hx
          · obtain ⟨y, _, he⟩ := List.mem_map.1 hx
            injection he with h1 h2
            exact absurd h1 heb
          · exact hx
        · intro hx
          exact List.mem_append.2 (Or.inr hx)

theorem raxIterKeys_mem : ∀ n : raxNode, wfSorted n = true →
    ∀ x : List Nat, (x ∈ raxIterKeys n ↔ containsKey n x = true) := by
  intro n
  induction n using raxNode.strongInduction with
  | step k ic edges ch IH =>
    intro hwf x
    rw [wfSorted_mk, Bool.and_eq_true] at hwf
    have hmemwf : ∀ c ∈ ch, wfSorted c = true :=
      fun c hc => wfSortedList_mem ch c hwf.2 hc
    cases ic with
    | true =>
      have h1 := hwf.1
      simp only [if_true, Bool.and_eq_true, decide_eq_true_eq] at h1
      obtain ⟨hlen, hone⟩ := h1
      cases ch with
      | nil => simp at hone
      | cons c cs =>
        have hcwf := hmemwf c (List.mem_cons_self c cs)
        have ihc := IH c (List.mem_cons_self c cs) hcwf
        rw [raxIterKeys_compr, raxIterList_cons]
        cases x with
        | nil =>
          rw [containsKey_nil]
          cases edges with
          | nil => simp at hlen
          | cons e0 es0 =>
            cases k <;> simp [raxNode.iskey, raxNode.key]
        | cons b s' =>
          rw [containsKey_compr_cons]
          constructor
          · intro hx
            rcases List.mem_append.1 hx with hx | hx
            · cases k <;> simp at hx
            · obtain ⟨y, hy, he⟩ := List.mem_map.1 hx
              have hpre : edges.isPrefixOf (b :: s') = true := by
                rw [List.isPrefixOf_iff_prefix]
                exact ⟨y, he⟩
              have hdrop : (b :: s').drop edges.length = y := by
                rw [← he, List.drop_left]
              rw [Bool.and_eq_true]
              exact ⟨hpre, hdrop ▸ (ihc y).1 hy⟩
          · intro hx
            rw [Bool.and_eq_true] at hx
            obtain ⟨hpre, hck⟩ := hx
            have he : edges ++ (b :: s').drop edges.length = b :: s' :=
              List.prefix_iff_eq_append.mp (List.isPrefixOf_iff_prefix.1 hpre)
            exact List.mem_append.2
              (Or.inr (List.mem_map.2 ⟨_, (ihc _).2 hck, he⟩))
    | false =>
      have h1 := hwf.1
      simp only [if_false, Bool.and_eq_true, decide_eq_true_eq,
        Bool.false_eq_true] at h1
      cases x with
      | nil =>
        rw [raxIterKeys_normal, containsKey_nil]
        constructor
        · intro hx
          rcases List.mem_append.1 hx with hx | hx
          · cases k <;> simp_all [raxNode.iskey, raxNode.key]
          · obtain ⟨hd, tl, hbe, _⟩ := raxIterPairs_heads edges ch _ hx
            cases hbe
        · intro hk
          refine List.mem_append.2 (Or.inl ?_)
          cases k <;> simp_all [raxNode.iskey, raxNode.key]
      | cons b s' =>
        rw [raxIterKeys_normal]
        have hp := raxIterPairs_mem edges ch k (ascending_pairwise edges h1.1)
          (fun c hc => IH c hc (hmemwf c hc)) b s'
        constructor
        · intro hx
          rcases List.mem_append.1 hx with hx | hx
          · cases k <;> simp at hx
          · exact hp.1 hx
        · intro hx
          exact List.mem_append.2 (Or.inr (hp.2 hx))

theorem wfSortedList_nil : wfSortedList [] = true := by
  rw [wfSortedList.eq_def]

/-- C9 (amended): on a tree satisfying the unsigned edge-order invariant
wfSorted, a full forward iteration lists the stored keys in strictly
ascending unsigned-byte lexicographic order (in particular each stored
key appears exactly once, and a key that is a proper prefix of another
comes first), membership in the listing coincides with stored-key
lookup, and the full backward iteration is exactly the reversed forward
listing.  The claim as stated over every tree built by the program does
not hold: raxInsert places edges by signed byte comparison, so a tree
holding the keys [97] and [128] is iterated as [[128], [97]]. -/
theorem raxIter_sorted_complete (n : raxNode) (hwf : wfSorted n = true) :
    List.Pairwise (List.Lex (· < ·)) (raxIterKeys n) ∧
    (raxIterKeys n).Nodup ∧
    (∀ x, x ∈ raxIterKeys n ↔ containsKey n x = true) ∧
    raxIterKeysRev n = (raxIterKeys n).reverse := by
  have hs := raxIterKeys_sorted n hwf
  refine ⟨hs, ?_, raxIterKeys_mem n hwf, raxIterRev_eq n⟩
  exact List.Pairwise.imp
    (fun {a b} (h : List.Lex (· < ·) a b) (he : a = b) =>
      lex_irrefl b (he ▸ h)) hs

/-- C9 counterexample: inserting the keys [97] then [128] with the
program's own raxInsert yields a tree whose forward iteration is
[[128], [97]], although [97] precedes [128] in unsigned-byte
lexicographic order; the visit order of the built tree is therefore not
unsigned-lexicographic.  The cause is the signed char comparison in
raxAddChild, which sorts byte 128 (signed -128) before byte 97. -/
theorem raxIterKeys_unsigned_order_counterexample :
    raxInsert raxNew [97] (some 1) =
      some (⟨.mk none false [97] [.mk (some (some 1)) false [] []], 1, 2⟩,
        true) ∧
    raxInsert ⟨.mk none false [97] [.mk (some (some 1)) false [] []], 1, 2⟩
        [128] (some 2) =
      some (⟨.mk none false [128, 97]
          [.mk (some (some 2)) false [] [],
           .mk (some (some 1)) false [] []], 2, 3⟩, true) ∧
    raxIterKeys (.mk none false [128, 97]
        [.mk (some (some 2)) false [] [],
         .mk (some (some 1)) false [] []]) = [[128], [97]] ∧
    List.Lex (· < ·) [97] [128] ∧
    ¬ List.Pairwise (List.Lex (· < ·))
        (raxIterKeys (.mk none false [128, 97]
          [.mk (some (some 2)) false [] [],
           .mk (some (some 1)) false [] []])) := by
  refine ⟨?_, ?_, ?_, ?_, ?_⟩
  · simp [raxInsert, raxNew, raxNewNode, insGo, appendLoop, raxAddChild,
      addChildPos, signedChar, chrMatch, raxNode.size, raxNode.edges,
      raxNode.iskey, raxNode.key, raxNode.withKey, withChildAt,
      RAX_NODE_MAX_SIZE]
  · simp [raxInsert, raxNewNode, insGo, insChild, appendLoop, raxAddChild,
      addChildPos, signedChar, chrMatch, comprMatchLen, raxNode.size,
      raxNode.edges, raxNode.iskey, raxNode.key, raxNode.withKey, withChildAt,
      RAX_NODE_MAX_SIZE]
    norm_num [List.findIdx_cons, List.insertIdx]
  · simp [raxIterKeys_normal, raxIterPairs_cons, raxIterPairs_nil_left,
      raxIterPairs_nil_right, raxIterKeys_mk, raxIterList_nil]
  · exact List.Lex.rel (by decide)
  · intro hp
    rw [show raxIterKeys (.mk none false [128, 97]
        [.mk (some (some 2)) false [] [],
         .mk (some (some 1)) false [] []]) = [[128], [97]] by
      simp [raxIterKeys_normal, raxIterPairs_cons, raxIterPairs_nil_left,
        raxIterPairs_nil_right, raxIterKeys_mk, raxIterList_nil]] at hp
    rcases List.pairwise_cons.1 hp with ⟨h1, _⟩
    have h2 := h1 [97] (List.mem_singleton.2 rfl)
    cases h2 with
    | rel h => omega

theorem raxIter_sorted_complete_witness :
    List.Pairwise (List.Lex (· < ·))
      (raxIterKeys (.mk none true [70, 79, 79]
        [.mk (some (some 1)) true [66, 65, 82]
          [.mk (some (some 2)) false [] []]])) ∧
    (raxIterKeys (.mk none true [70, 79, 79]
        [.mk (some (some 1)) true [66, 65, 82]
          [.mk (some (some 2)) false [] []]])).Nodup ∧
    (∀ x, x ∈ raxIterKeys (.mk none true [70, 79, 79]
        [.mk (some (some 1)) true [66, 65, 82]
          [.mk (some (some 2)) false [] []]]) ↔
      containsKey (.mk none true [70, 79, 79]
        [.mk (some (some 1)) true [66, 65, 82]
          [.mk (some (some 2)) false [] []]]) x = true) ∧
    raxIterKeysRev (.mk none true [70, 79, 79]
        [.mk (some (some 1)) true [66, 65, 82]
          [.mk (some (some 2)) false [] []]]) =
      (raxIterKeys (.mk none true [70, 79, 79]
        [.mk (some (some 1)) true [66, 65, 82]
          [.mk (some (some 2)) false [] []]])).reverse :=
  raxIter_sorted_complete _ (by
    simp [wfSorted_mk, wfSortedList_cons, wfSortedList_nil, ascending])
